import Mathlib

/-!
Shallow embedding of the BaYin audio playback engine
(`src-tauri/src/audio_engine/{engine,dsp,http_source}.rs`) together with
proofs about the engine's command handlers, fade envelope, equalizer and
HTTP streaming source.

Conventions:
* `f32`/`f64` arithmetic is modelled over `ℝ` (exact real arithmetic); the
  one place where IEEE special values matter (the `SetVolume` handler and
  Rust's `f32::clamp`) uses an explicit model `F32` with NaN and the two
  infinities.
* Byte positions and lengths of the HTTP source (`u64`/`usize`) are
  modelled as `ℕ`; resolved seek targets (Rust `i64`) as `ℤ`.
* Sample buffers are `List ℝ` (interleaved, as in the source); the
  `convert_channels` helper is modelled over `ℚ` so that it stays fully
  executable.
-/

namespace BaYin

/-! ## Rust `f32` with special values, and `f32::clamp`

`AudioCommand::SetVolume` (engine.rs:344-347) runs `vol.clamp(0.0, 1.0)`.
Rust's float `clamp` is `if self < min { min } else ... ; if self > max
{ max }` where every comparison with NaN is false, so NaN propagates. -/

/-- Model of a Rust `f32` value: NaN, the two infinities, or a finite
value (finite values modelled as exact rationals). -/
inductive F32 where
  | nan : F32
  | posInf : F32
  | negInf : F32
  | val : ℚ → F32
  deriving DecidableEq

/-- Rust `<` on `f32`: any comparison involving NaN is false. -/
def F32.ltb : F32 → F32 → Bool
  | .nan, _ => false
  | _, .nan => false
  | .negInf, .negInf => false
  | .negInf, _ => true
  | .posInf, _ => false
  | .val _, .posInf => true
  | .val _, .negInf => false
  | .val q, .val r => decide (q < r)

/-- Rust `f32::clamp(self, min, max)`: `if self < min { self = min };
if self > max { self = max }; self`. -/
def F32.rustClamp (x lo hi : F32) : F32 :=
  let x1 := if F32.ltb x lo then lo else x
  if F32.ltb hi x1 then hi else x1

/-- The `SetVolume` handler (engine.rs:344-347): the stored volume becomes
`vol.clamp(0.0, 1.0)`; the previous volume is not consulted. -/
def setVolumeHandler (_oldVolume : F32) (vol : F32) : F32 :=
  F32.rustClamp vol (F32.val 0) (F32.val 1)

/-! ## Fade envelope (engine.rs:14-27, 550-583) -/

/-- Pending action of a fade-out (`FadeAction`, engine.rs:17-21). -/
inductive FadeAction where
  | pause : FadeAction
  | stop : FadeAction
  | playNext : String → FadeAction
  deriving DecidableEq

/-- Fade envelope state (`FadeState`, engine.rs:23-27). -/
inductive FadeState where
  | none : FadeState
  | fadingIn : ℝ → ℝ → FadeState
  | fadingOut : ℝ → ℝ → FadeAction → FadeState

/-- `FADE_OUT_MS` (engine.rs:14). -/
noncomputable def FADE_OUT_MS : ℝ := 150

/-- `FADE_IN_MS` (engine.rs:15). -/
noncomputable def FADE_IN_MS : ℝ := 200

/-- `fade_step` (engine.rs:550-552): `1.0 / (duration_ms * 0.001 *
sample_rate * channels)`. -/
noncomputable def fade_step (duration_ms sample_rate channels : ℝ) : ℝ :=
  1 / (duration_ms * 0.001 * sample_rate * channels)

/-- Rust `f32::EPSILON` = 2^(-23), used by `apply_volume_with_fade` in the
`FadeState::None` branch. -/
noncomputable def F32_EPSILON : ℝ := 1 / 8388608

/-- The per-sample loop of the `FadingIn` branch of
`apply_volume_with_fade` (engine.rs:565-573): each sample is multiplied by
`volume * gain`, then `gain = (gain + step).min(1.0)`.  Returns the
processed samples and the final gain. -/
noncomputable def fadeInRun (volume gain step : ℝ) : List ℝ → List ℝ × ℝ
  | [] => ([], gain)
  | x :: xs =>
      let y := x * (volume * gain)
      let rest := fadeInRun volume (min (gain + step) 1) step xs
      (y :: rest.1, rest.2)

/-- The per-sample loop of the `FadingOut` branch of
`apply_volume_with_fade` (engine.rs:575-581): each sample is multiplied by
`volume * gain`, then `gain = (gain - step).max(0.0)`. -/
noncomputable def fadeOutRun (volume gain step : ℝ) : List ℝ → List ℝ × ℝ
  | [] => ([], gain)
  | x :: xs =>
      let y := x * (volume * gain)
      let rest := fadeOutRun volume (max (gain - step) 0) step xs
      (y :: rest.1, rest.2)

/-- `apply_volume_with_fade` (engine.rs:555-583).  Returns the processed
samples, the updated fade state, and the completion flag (`true` exactly
when the function returns `true` in Rust, i.e. when a fade-out's gain has
reached 0 after the loop). -/
noncomputable def apply_volume_with_fade (samples : List ℝ) (volume : ℝ)
    (fade : FadeState) : List ℝ × FadeState × Bool :=
  match fade with
  | .none =>
      (if |volume - 1| > F32_EPSILON then samples.map (fun s => s * volume)
       else samples, .none, false)
  | .fadingIn gain step =>
      let r := fadeInRun volume gain step samples
      (r.1, if 1 ≤ r.2 then .none else .fadingIn r.2 step, false)
  | .fadingOut gain step action =>
      let r := fadeOutRun volume gain step samples
      (r.1, .fadingOut r.2 step action, decide (r.2 ≤ 0))

/-! ## The `Resume` command handler (engine.rs:273-299) -/

/-- The fields of the audio thread's local state that the `Resume` handler
reads and writes. -/
structure ResumeCtx where
  is_playing : Bool
  has_decoder : Bool
  out_rate : ℝ
  out_ch : ℝ

/-- The `AudioCommand::Resume` handler (engine.rs:273-299), restricted to
its effect on `is_playing` and `fade_state`.  When idle with a decoder it
starts a fade-in from gain 0; when playing and the current fade is a
fade-out whose pending action is `Pause`, it replaces it with a fade-in
from the current gain; otherwise the fade state is left unchanged. -/
noncomputable def resumeHandler (ctx : ResumeCtx) (fade : FadeState) :
    Bool × FadeState :=
  if ctx.is_playing = false ∧ ctx.has_decoder = true then
    (true, .fadingIn 0 (fade_step FADE_IN_MS ctx.out_rate ctx.out_ch))
  else if ctx.is_playing = true then
    match fade with
    | .fadingOut gain _ .pause =>
        (ctx.is_playing, .fadingIn gain (fade_step FADE_IN_MS ctx.out_rate ctx.out_ch))
    | f => (ctx.is_playing, f)
  else (ctx.is_playing, fade)

/-! ## 10-band biquad equalizer (dsp.rs) -/

/-- `EQ_FREQUENCIES` (dsp.rs:9-11). -/
noncomputable def EQ_FREQUENCIES : List ℝ :=
  [32, 64, 125, 250, 500, 1000, 2000, 4000, 8000, 16000]

/-- Normalized biquad coefficients (`BiquadCoeffs`, dsp.rs:13-20). -/
structure BiquadCoeffs where
  b0 : ℝ
  b1 : ℝ
  b2 : ℝ
  a1 : ℝ
  a2 : ℝ

/-- Direct Form II Transposed state (`BiquadState`, dsp.rs:22-26). -/
structure BiquadState where
  z1 : ℝ
  z2 : ℝ

/-- `BiquadState::new` (dsp.rs:29-31). -/
def BiquadState.new : BiquadState := ⟨0, 0⟩

/-- `BiquadState::process` (dsp.rs:33-39): one Direct Form II Transposed
step; returns the output sample and the updated state. -/
def BiquadState.run (s : BiquadState) (c : BiquadCoeffs) (x : ℝ) :
    ℝ × BiquadState :=
  let y := c.b0 * x + s.z1
  (y, ⟨c.b1 * x - c.a1 * y + s.z2, c.b2 * x - c.a2 * y⟩)

/-- `FilterType` (dsp.rs:47-52). -/
inductive FilterType where
  | lowShelf : FilterType
  | peaking : FilterType
  | highShelf : FilterType
  deriving DecidableEq

/-- `compute_coeffs` (dsp.rs:54-104): standard audio-cookbook biquad
formulas, normalized by `a0`. -/
noncomputable def compute_coeffs (filter_type : FilterType)
    (freq gain_db q sample_rate : ℝ) : BiquadCoeffs :=
  let a : ℝ := (10 : ℝ) ^ ((gain_db / 40 : ℝ))
  let w0 := 2 * Real.pi * freq / sample_rate
  let cos_w0 := Real.cos w0
  let sin_w0 := Real.sin w0
  match filter_type with
  | .lowShelf =>
      let alpha := sin_w0 / 2 * Real.sqrt ((a + 1 / a) * (1 / q - 1) + 2)
      let two_sqrt_a_alpha := 2 * Real.sqrt a * alpha
      let b0 := a * ((a + 1) - (a - 1) * cos_w0 + two_sqrt_a_alpha)
      let b1 := 2 * a * ((a - 1) - (a + 1) * cos_w0)
      let b2 := a * ((a + 1) - (a - 1) * cos_w0 - two_sqrt_a_alpha)
      let a0 := (a + 1) + (a - 1) * cos_w0 + two_sqrt_a_alpha
      let a1 := -2 * ((a - 1) + (a + 1) * cos_w0)
      let a2 := (a + 1) + (a - 1) * cos_w0 - two_sqrt_a_alpha
      ⟨b0 / a0, b1 / a0, b2 / a0, a1 / a0, a2 / a0⟩
  | .peaking =>
      let alpha := sin_w0 / (2 * q)
      let b0 := 1 + alpha * a
      let b1 := -2 * cos_w0
      let b2 := 1 - alpha * a
      let a0 := 1 + alpha / a
      let a1 := -2 * cos_w0
      let a2 := 1 - alpha / a
      ⟨b0 / a0, b1 / a0, b2 / a0, a1 / a0, a2 / a0⟩
  | .highShelf =>
      let alpha := sin_w0 / 2 * Real.sqrt ((a + 1 / a) * (1 / q - 1) + 2)
      let two_sqrt_a_alpha := 2 * Real.sqrt a * alpha
      let b0 := a * ((a + 1) + (a - 1) * cos_w0 + two_sqrt_a_alpha)
      let b1 := -2 * a * ((a - 1) + (a + 1) * cos_w0)
      let b2 := a * ((a + 1) + (a - 1) * cos_w0 - two_sqrt_a_alpha)
      let a0 := (a + 1) - (a - 1) * cos_w0 + two_sqrt_a_alpha
      let a1 := 2 * ((a - 1) - (a + 1) * cos_w0)
      let a2 := (a + 1) - (a - 1) * cos_w0 - two_sqrt_a_alpha
      ⟨b0 / a0, b1 / a0, b2 / a0, a1 / a0, a2 / a0⟩

/-- Filter type of band `i` (dsp.rs:124-131 and 192-199): band 0 is a
low-shelf, band 9 a high-shelf, bands 1-8 peaking. -/
def filterTypeFor (i : ℕ) : FilterType :=
  if i = 0 then .lowShelf else if i = 9 then .highShelf else .peaking

/-- Q of a band (dsp.rs:132, 200): 1.4 for peaking, 0.707 for shelves. -/
noncomputable def qFor (ft : FilterType) : ℝ :=
  if ft = .peaking then 1.4 else 0.707

/-- `Equalizer` (dsp.rs:106-114): coefficients and per-band, per-channel
filter state for the 10 bands. -/
structure Equalizer where
  coeffs : List BiquadCoeffs
  states : List (List BiquadState)
  gains : List ℝ
  enabled : Bool
  sample_rate : ℝ
  channels : ℕ

/-- `Equalizer::new` (dsp.rs:117-145): gain 0 coefficients for the 10
fixed frequencies, all-zero state, enabled. -/
noncomputable def Equalizer.new (sample_rate : ℕ) (channels : ℕ) : Equalizer :=
  { coeffs := (List.range 10).map (fun i =>
      compute_coeffs (filterTypeFor i) (EQ_FREQUENCIES.getD i 0) 0
        (qFor (filterTypeFor i)) (sample_rate : ℝ))
    states := (List.range 10).map (fun _ => List.replicate channels BiquadState.new)
    gains := List.replicate 10 0
    enabled := true
    sample_rate := (sample_rate : ℝ)
    channels := channels }

/-- `Equalizer::recompute_coeffs` (dsp.rs:191-203). -/
noncomputable def Equalizer.recompute_coeffs (eq : Equalizer) : Equalizer :=
  { eq with coeffs := (List.range 10).map (fun i =>
      compute_coeffs (filterTypeFor i) (EQ_FREQUENCIES.getD i 0)
        (eq.gains.getD i 0) (qFor (filterTypeFor i)) eq.sample_rate) }

/-- `Equalizer::set_gains` (dsp.rs:147-150): store the gains and recompute
all coefficients; filter state is not touched. -/
noncomputable def Equalizer.set_gains (eq : Equalizer) (gains : List ℝ) :
    Equalizer :=
  Equalizer.recompute_coeffs { eq with gains := gains }

/-- `Equalizer::set_enabled` (dsp.rs:152-154). -/
def Equalizer.set_enabled (eq : Equalizer) (enabled : Bool) : Equalizer :=
  { eq with enabled := enabled }

/-- `Equalizer::reset` (dsp.rs:160-166): zero every `z1`/`z2` state word;
coefficients are not touched. -/
def Equalizer.reset (eq : Equalizer) : Equalizer :=
  { eq with states := eq.states.map (fun band => band.map (fun _ => BiquadState.new)) }

/-- Rust `f32::clamp` on an already-finite value with finite bounds:
`if x < lo { lo } else if x > hi { hi } else x`. -/
noncomputable def rclamp (x lo hi : ℝ) : ℝ :=
  if x < lo then lo else if hi < x then hi else x

/-- The inner band cascade of `Equalizer::process` (dsp.rs:182-184): run
the sample through band 0..9, each band using (and updating) the state of
channel `ch`.  The band-major state layout `states[band][ch]` mirrors the
source. -/
def eqCascade (coeffs : List BiquadCoeffs) (states : List (List BiquadState))
    (ch : ℕ) (x : ℝ) : ℝ × List (List BiquadState) :=
  match coeffs, states with
  | c :: cs, band :: rest =>
      let s := band.getD ch BiquadState.new
      let r := s.run c x
      let deeper := eqCascade cs rest ch r.1
      (deeper.1, band.set ch r.2 :: deeper.2)
  | _, _ => (x, states)

/-- The per-sample loop of `Equalizer::process` (dsp.rs:177-188) over the
interleaved samples `frame * channels + ch` in index order; each output
sample is clamped to `[-1, 1]`. -/
noncomputable def eqProcessList (coeffs : List BiquadCoeffs)
    (states : List (List BiquadState)) (channels : ℕ) (idx : ℕ) :
    List ℝ → List ℝ × List (List BiquadState)
  | [] => ([], states)
  | x :: xs =>
      let r := eqCascade coeffs states (idx % channels) x
      let rest := eqProcessList coeffs r.2 channels (idx + 1) xs
      (rclamp r.1 (-1) 1 :: rest.1, rest.2)

/-- `Equalizer::process` (dsp.rs:169-189): identity when disabled;
otherwise processes `frames * channels` samples in place (a trailing
remainder shorter than one frame is left untouched, as in the source). -/
noncomputable def Equalizer.process (eq : Equalizer) (samples : List ℝ) :
    List ℝ × Equalizer :=
  if eq.enabled = false then (samples, eq)
  else
    let n := samples.length / eq.channels * eq.channels
    let r := eqProcessList eq.coeffs eq.states eq.channels 0 (samples.take n)
    (r.1 ++ samples.drop n, { eq with states := r.2 })

/-! ## The `Seek` handler and the decode-loop position update (engine.rs) -/

/-- The audio-thread local fields touched by the `Seek` handler. -/
structure SeekCtx where
  position_secs : ℝ
  duration_secs : ℝ
  is_playing : Bool
  has_decoder : Bool
  eq : Equalizer

/-- The `AudioCommand::Seek` handler (engine.rs:330-343).  `seek_ok` is the
outcome of the decoder's `seek` call (external to this module): on success
the handler stores the requested position verbatim, flushes the output and
resets the EQ state; on failure, or with no decoder, nothing changes. -/
def seekHandler (st : SeekCtx) (pos : ℝ) (seek_ok : Bool) : SeekCtx :=
  if st.has_decoder = true then
    if seek_ok = true then
      { st with position_secs := pos, eq := st.eq.reset }
    else st
  else st

/-- The decode-loop position update (engine.rs:423-426):
`position_secs += decoded_frames / source_sample_rate`, then clamp to
`duration_secs` when it overshoots and the duration is known. -/
noncomputable def stepPosition (position duration : ℝ)
    (decoded_frames source_sample_rate : ℕ) : ℝ :=
  let p := position + (decoded_frames : ℝ) / (source_sample_rate : ℝ)
  if p > duration ∧ duration > 0 then duration else p

/-- The position reported in `time` events (engine.rs:492-500):
`(position_secs - buffered_secs).max(0.0)`. -/
noncomputable def playbackPos (position buffered_secs : ℝ) : ℝ :=
  max (position - buffered_secs) 0

/-! ## HTTP streaming source (http_source.rs) -/

/-- `PRE_BUFFER` = 128 KB (http_source.rs:6). -/
def PRE_BUFFER : ℕ := 128 * 1024

/-- Snapshot of an `HttpStreamSource` together with its shared
`StreamBuffer` (http_source.rs:10-39): reader position, total content
length (0 when unknown), and the downloaded window
`[data_start, data_start + data.length)`. -/
structure HttpState where
  position : ℕ
  content_length : ℕ
  data : List ℕ
  data_start : ℕ
  done : Bool

/-- End of the buffered window: `data_start + data.len()`. -/
def HttpState.bufEnd (st : HttpState) : ℕ := st.data_start + st.data.length

/-- `SeekFrom` of `std::io` as used by `<HttpStreamSource as Seek>::seek`. -/
inductive HSeekFrom where
  | fromStart : ℕ → HSeekFrom
  | fromEnd : ℤ → HSeekFrom
  | fromCurrent : ℤ → HSeekFrom

/-- Target resolution of `seek` (http_source.rs:259-275).  For
`End`-relative seeks with unknown content length the source waits for the
download to finish and uses the final `data_start + data.len()`; the
snapshot `st` stands for the buffer state at that point. -/
def resolveSeekTarget (st : HttpState) : HSeekFrom → ℤ
  | .fromStart o => (o : ℤ)
  | .fromEnd o =>
      if 0 < st.content_length then (st.content_length : ℤ) + o
      else (st.bufEnd : ℤ) + o
  | .fromCurrent o => (st.position : ℤ) + o

/-- `<HttpStreamSource as Seek>::seek` (http_source.rs:257-305).  Returns
`Except.error ()` for a negative resolved target, otherwise the new
position together with a flag that is `true` exactly when the handler
issues a fresh `Range: bytes=pos-` reopen before returning. -/
def httpSeek (st : HttpState) (sf : HSeekFrom) : Except Unit (ℕ × Bool) :=
  let t := resolveSeekTarget st sf
  if t < 0 then .error ()
  else
    let p := t.toNat
    if st.bufEnd ≤ p ∧ st.done = false ∧ st.position < p then
      if PRE_BUFFER < p - st.bufEnd then .ok (p, true) else .ok (p, false)
    else .ok (p, false)

/-- Outcome of one `read` call on the model. -/
inductive ReadResult where
  | bytes : List ℕ → ℕ → ReadResult
  | wouldBlock : ReadResult
  | reopenNeeded : ReadResult

/-- `<HttpStreamSource as Read>::read` (http_source.rs:205-255) on a
buffer snapshot.  `bytes out p'` returns the copied bytes and the advanced
position; `reopenNeeded` marks the `position < data_start` path (which
reopens at `position` and retries); `wouldBlock` marks the cond-var wait
for more data. -/
def httpRead (st : HttpState) (buflen : ℕ) : ReadResult :=
  if 0 < st.content_length ∧ st.content_length ≤ st.position then
    .bytes [] st.position
  else if st.position < st.data_start then .reopenNeeded
  else if st.bufEnd ≤ st.position then
    if st.done = true then .bytes [] st.position else .wouldBlock
  else
    let buf_offset := st.position - st.data_start
    let available := st.data.length - buf_offset
    let to_copy := min buflen available
    .bytes ((st.data.drop buf_offset).take to_copy) (st.position + to_copy)

/-! ## `convert_channels` (engine.rs:586-626), modelled over `ℚ` -/

/-- `convert_channels` (engine.rs:586-626).  Output is written frame by
frame: mono→stereo duplicates, stereo→mono averages, other downmixes copy
the first `to_ch` channels verbatim, other upmixes read channel
`min(ch, from_ch - 1)`. -/
def convert_channels (samples : List ℚ) (from_ch to_ch : ℕ) : List ℚ :=
  if from_ch = to_ch then samples
  else
    let frames := samples.length / from_ch
    if from_ch = 1 ∧ to_ch = 2 then
      ((List.range frames).map (fun f => [samples.getD f 0, samples.getD f 0])).flatten
    else if from_ch = 2 ∧ to_ch = 1 then
      ((List.range frames).map (fun f =>
        [(samples.getD (f * 2) 0 + samples.getD (f * 2 + 1) 0) * (1 / 2)])).flatten
    else if to_ch < from_ch then
      ((List.range frames).map (fun f =>
        (List.range to_ch).map (fun ch => samples.getD (f * from_ch + ch) 0))).flatten
    else
      ((List.range frames).map (fun f =>
        (List.range to_ch).map (fun ch =>
          samples.getD (f * from_ch + min ch (from_ch - 1)) 0))).flatten

/-! ## Claim C1: `SetVolume` clamping -/

/-- Claim C1, counterexample: `SetVolume(NaN)` does not leave the stored
volume unchanged — Rust's `clamp` propagates NaN, so a previous volume of
1/2 is replaced by NaN. -/
theorem c1_nan_volume_changes :
    setVolumeHandler (F32.val (1/2)) F32.nan = F32.nan ∧
      setVolumeHandler (F32.val (1/2)) F32.nan ≠ F32.val (1/2) := by
  constructor
  · rfl
  · intro h
    exact F32.noConfusion h

/-- Claim C1 (amended): `SetVolume(v)` stores `v.clamp(0, 1)`; for every
non-NaN argument (including the infinities and ±2.0) the stored volume is
a finite value in `[0, 1]`, and for finite `v` it is exactly the clamp of
`v`; but for `v = NaN` the stored volume becomes NaN, not the previous
value. -/
theorem c1_setVolume_clamps :
    (∀ old : F32, setVolumeHandler old F32.nan = F32.nan) ∧
    (∀ old : F32, setVolumeHandler old F32.posInf = F32.val 1) ∧
    (∀ old : F32, setVolumeHandler old F32.negInf = F32.val 0) ∧
    (∀ (old : F32) (x : ℚ), setVolumeHandler old (F32.val x) =
        F32.val (if x < 0 then 0 else if 1 < x then 1 else x)) ∧
    (∀ (old v : F32), v ≠ F32.nan →
        ∃ q : ℚ, setVolumeHandler old v = F32.val q ∧ 0 ≤ q ∧ q ≤ 1) := by
  refine ⟨fun _ => rfl, fun _ => rfl, fun _ => rfl, ?_, ?_⟩
  · intro _ x
    simp only [setVolumeHandler, F32.rustClamp, F32.ltb]
    by_cases h0 : x < 0
    · simp [h0]
    · by_cases h1 : 1 < x <;> simp [h0, h1]
  · intro old v hv
    match v with
    | .nan => exact absurd rfl hv
    | .posInf => exact ⟨1, rfl, by norm_num⟩
    | .negInf => exact ⟨0, rfl, by norm_num⟩
    | .val x =>
        refine ⟨if x < 0 then 0 else if 1 < x then 1 else x, ?_, ?_, ?_⟩
        · simp only [setVolumeHandler, F32.rustClamp, F32.ltb]
          by_cases h0 : x < 0
          · simp [h0]
          · by_cases h1 : 1 < x <;> simp [h0, h1]
        · split_ifs <;> linarith
        · split_ifs <;> linarith

/-- Claim C1 witness: the amended theorem applied to `v = +∞` over an old
volume of 1/2. -/
theorem c1_setVolume_clamps_witness :
    F32.posInf ≠ F32.nan ∧
      ∃ q : ℚ, setVolumeHandler (F32.val (1/2)) F32.posInf = F32.val q ∧
        0 ≤ q ∧ q ≤ 1 :=
  ⟨fun h => F32.noConfusion h,
   c1_setVolume_clamps.2.2.2.2 (F32.val (1/2)) F32.posInf (fun h => F32.noConfusion h)⟩

/-! ## Claim C6: `Resume` during a fade-out -/

/-- Claim C6: while playing, a `Resume` that finds a fade-out with pending
action `Pause` replaces it with a fade-in from the current gain (with the
200 ms fade-in step); a fade-out pending `Stop` or `PlayNext` is left
completely unchanged by `resumeHandler`. -/
theorem c6_resume_reverses_only_pause_fade :
    ∀ (ctx : ResumeCtx) (g s : ℝ) (src : String),
      ctx.is_playing = true →
      resumeHandler ctx (.fadingOut g s .pause) =
          (true, .fadingIn g (fade_step FADE_IN_MS ctx.out_rate ctx.out_ch)) ∧
      resumeHandler ctx (.fadingOut g s .stop) = (true, .fadingOut g s .stop) ∧
      resumeHandler ctx (.fadingOut g s (.playNext src)) =
          (true, .fadingOut g s (.playNext src)) := by
  intro ctx g s src hp
  refine ⟨?_, ?_, ?_⟩ <;> simp [resumeHandler, hp]

/-- Claim C6 witness: the theorem at a concrete playing context. -/
theorem c6_resume_reverses_only_pause_fade_witness :
    (ResumeCtx.mk true true 44100 2).is_playing = true ∧
      resumeHandler (ResumeCtx.mk true true 44100 2)
          (.fadingOut (1/2) (1/300) .pause) =
        (true, .fadingIn (1/2) (fade_step FADE_IN_MS 44100 2)) :=
  ⟨rfl, (c6_resume_reverses_only_pause_fade ⟨true, true, 44100, 2⟩ (1/2) (1/300) "s" rfl).1⟩

/-! ## Claim C9: frame effect of `SetEqBands` and `Seek` on the EQ -/

/-- Claim C9: `set_gains` (the `SetEqBands` handler) recomputes all 10
bands' coefficients and leaves every filter state word unchanged; `reset`
(invoked by a successful `Seek`) zeroes all state words and leaves the
coefficients unchanged. -/
theorem c9_set_gains_reset_frame :
    ∀ (eq : Equalizer) (gains : List ℝ) (st : SeekCtx) (pos : ℝ),
      st.has_decoder = true →
      (eq.set_gains gains).states = eq.states ∧
      (eq.set_gains gains).coeffs = (List.range 10).map (fun i =>
          compute_coeffs (filterTypeFor i) (EQ_FREQUENCIES.getD i 0)
            (gains.getD i 0) (qFor (filterTypeFor i)) eq.sample_rate) ∧
      eq.reset.coeffs = eq.coeffs ∧
      (∀ band ∈ eq.reset.states, ∀ s ∈ band, s = BiquadState.new) ∧
      (seekHandler st pos true).eq = st.eq.reset := by
  intro eq gains st pos hd
  refine ⟨rfl, rfl, rfl, ?_, ?_⟩
  · intro band hband s hs
    simp only [Equalizer.reset, List.mem_map] at hband
    obtain ⟨b0, _, rfl⟩ := hband
    simp only [List.mem_map] at hs
    obtain ⟨s0, _, rfl⟩ := hs
    rfl
  · simp [seekHandler, hd]

/-- Claim C9 witness: the theorem at a concrete equalizer and seek
context. -/
theorem c9_set_gains_reset_frame_witness :
    (SeekCtx.mk 0 30 true true (Equalizer.new 44100 2)).has_decoder = true ∧
      ((Equalizer.new 44100 2).set_gains (List.replicate 10 3)).states =
        (Equalizer.new 44100 2).states :=
  ⟨rfl, (c9_set_gains_reset_frame (Equalizer.new 44100 2) (List.replicate 10 3)
      ⟨0, 30, true, true, Equalizer.new 44100 2⟩ 0 rfl).1⟩

/-! ## Claim C2: position bounds around `Seek` -/

/-- Claim C2, counterexample: with a 30-second track playing at position
10, a `Seek` to 100 that the decoder accepts leaves `position_secs = 100 >
duration_secs = 30` — the handler stores the target verbatim, so the
logical position is not clamped to `[0, duration_secs]` while playing. -/
theorem c2_seek_beyond_duration_not_clamped :
    (seekHandler ⟨10, 30, true, true, Equalizer.new 44100 2⟩ 100 true).duration_secs > 0 ∧
    (seekHandler ⟨10, 30, true, true, Equalizer.new 44100 2⟩ 100 true).is_playing = true ∧
    (seekHandler ⟨10, 30, true, true, Equalizer.new 44100 2⟩ 100 true).position_secs >
      (seekHandler ⟨10, 30, true, true, Equalizer.new 44100 2⟩ 100 true).duration_secs := by
  refine ⟨?_, rfl, ?_⟩ <;> norm_num [seekHandler]

/-- Claim C2 (amended): the `Seek` handler never panics in the model and
stores the requested position verbatim on decoder success (no clamping);
on decoder failure or without a decoder the position is unchanged.  The
position is clamped from above only by the decode-loop update
`stepPosition` (which keeps it `≤ duration` whenever `duration > 0` and
`≥ 0` when it was nonnegative), and the emitted playback position
`playbackPos` is clamped below at 0. -/
theorem c2_seek_position_amended :
    ∀ (st : SeekCtx) (pos : ℝ) (ok : Bool) (p dur : ℝ) (frames sr : ℕ)
      (buf : ℝ),
      (st.has_decoder = true → (seekHandler st pos true).position_secs = pos) ∧
      (seekHandler st pos false).position_secs = st.position_secs ∧
      (st.has_decoder = false →
        (seekHandler st pos ok).position_secs = st.position_secs) ∧
      (dur > 0 → stepPosition p dur frames sr ≤ dur) ∧
      (0 ≤ p → 0 ≤ stepPosition p dur frames sr) ∧
      0 ≤ playbackPos p buf := by
  intro st pos ok p dur frames sr buf
  refine ⟨?_, ?_, ?_, ?_, ?_, ?_⟩
  · intro hd
    simp [seekHandler, hd]
  · simp [seekHandler]
  · intro hd
    simp [seekHandler, hd]
  · intro hdur
    simp only [stepPosition]
    split_ifs with h
    · exact le_refl dur
    · push_neg at h
      by_contra hc
      push_neg at hc
      exact absurd hdur (not_lt.mpr (h hc))
  · intro hp
    simp only [stepPosition]
    split_ifs with h
    · rcases h with ⟨_, h2⟩
      linarith
    · have : (0:ℝ) ≤ (frames : ℝ) / (sr : ℝ) :=
        div_nonneg (Nat.cast_nonneg frames) (Nat.cast_nonneg sr)
      linarith
  · exact le_max_right _ 0

/-- Claim C2 witness: the amended theorem at a concrete playing state. -/
theorem c2_seek_position_amended_witness :
    (SeekCtx.mk 10 30 true true (Equalizer.new 44100 2)).has_decoder = true ∧
      (seekHandler ⟨10, 30, true, true, Equalizer.new 44100 2⟩ 100 true).position_secs = 100 :=
  ⟨rfl, (c2_seek_position_amended ⟨10, 30, true, true, Equalizer.new 44100 2⟩
      100 true 0 30 441 44100 0).1 rfl⟩

/-! ## Claim C7: when `seek` reopens the HTTP connection -/

/-- Claim C7: a successful `seek` issues a Range reopen exactly when the
resolved target is at or beyond the buffered window, the download is not
done, the target is strictly forward of the current position, and the gap
past the buffered end exceeds 128 KB; in every other successful case
(backward seeks, and forward seeks within 128 KB of the buffered end) no
reopen happens inside `seek`. -/
theorem c7_http_seek_reopen_condition :
    ∀ (st : HttpState) (sf : HSeekFrom) (p : ℕ) (reopened : Bool),
      httpSeek st sf = .ok (p, reopened) →
      p = (resolveSeekTarget st sf).toNat ∧
      (reopened = true ↔
        st.bufEnd ≤ p ∧ st.done = false ∧ st.position < p ∧
          PRE_BUFFER < p - st.bufEnd) := by
  intro st sf p r h
  simp only [httpSeek] at h
  by_cases h0 : resolveSeekTarget st sf < 0
  · simp [h0] at h
  · simp only [h0, if_false] at h
    by_cases h1 : st.bufEnd ≤ (resolveSeekTarget st sf).toNat ∧
        st.done = false ∧ st.position < (resolveSeekTarget st sf).toNat
    · by_cases h2 : PRE_BUFFER < (resolveSeekTarget st sf).toNat - st.bufEnd
      · simp only [h1, h2, if_true, Except.ok.injEq, Prod.mk.injEq] at h
        obtain ⟨rfl, rfl⟩ := h
        exact ⟨rfl, by simp [h1.1, h1.2.1, h1.2.2, h2]⟩
      · simp only [h1, h2, if_true, if_false, Except.ok.injEq, Prod.mk.injEq] at h
        obtain ⟨rfl, rfl⟩ := h
        refine ⟨rfl, ?_⟩
        constructor
        · intro hb
          exact absurd hb (by simp)
        · intro hb
          exact absurd hb.2.2.2 h2
    · simp only [h1, if_false, Except.ok.injEq, Prod.mk.injEq] at h
      obtain ⟨rfl, rfl⟩ := h
      refine ⟨rfl, ?_⟩
      constructor
      · intro hb
        exact absurd hb (by simp)
      · intro hb
        exact absurd ⟨hb.1, hb.2.1, hb.2.2.1⟩ h1

/-- Claim C7 witness: a far-forward seek (target 500000, buffered window
`[0, 100)`, download running) reopens. -/
theorem c7_http_seek_reopen_condition_witness :
    httpSeek ⟨0, 1000000, List.replicate 100 0, 0, false⟩ (.fromStart 500000) =
        .ok (500000, true) ∧
      ((500000 : ℕ) =
          (resolveSeekTarget ⟨0, 1000000, List.replicate 100 0, 0, false⟩
            (.fromStart 500000)).toNat ∧
        (true = true ↔
          HttpState.bufEnd ⟨0, 1000000, List.replicate 100 0, 0, false⟩ ≤ 500000 ∧
            false = false ∧ 0 < 500000 ∧
            PRE_BUFFER <
              500000 - HttpState.bufEnd ⟨0, 1000000, List.replicate 100 0, 0, false⟩)) := by
  constructor
  · rfl
  · exact c7_http_seek_reopen_condition ⟨0, 1000000, List.replicate 100 0, 0, false⟩
      (.fromStart 500000) 500000 true rfl

/-! ## Claim C8: `read` stays inside the buffered window -/

/-- Claim C8: whenever `read` returns bytes, the returned list is a
contiguous slice of the shared buffer (so no byte beyond
`data_start + len(data)` is ever returned), its length is
`min(len(buf), data_len - (position - data_start))`, and the position
advances by exactly that count.  The hypotheses exclude the lazy-reopen
path (`position < data_start`, claim C7's concern) and state the
downloader invariant that the buffer never extends past a known content
length. -/
theorem c8_http_read_within_buffer :
    ∀ (st : HttpState) (buflen : ℕ) (out : List ℕ) (p' : ℕ),
      (0 < st.content_length → st.bufEnd ≤ st.content_length) →
      st.data_start ≤ st.position →
      httpRead st buflen = .bytes out p' →
      out.length = min buflen (st.data.length - (st.position - st.data_start)) ∧
      p' = st.position + out.length ∧
      ∃ pre post, st.data = pre ++ out ++ post := by
  intro st buflen out p' hcl hpos h
  simp only [httpRead] at h
  by_cases h0 : 0 < st.content_length ∧ st.content_length ≤ st.position
  · simp only [h0, if_true, ReadResult.bytes.injEq] at h
    obtain ⟨rfl, rfl⟩ := h
    have hend : st.bufEnd ≤ st.position := le_trans (hcl h0.1) h0.2
    simp only [HttpState.bufEnd] at hend
    have hz : st.data.length - (st.position - st.data_start) = 0 := by omega
    refine ⟨by simp [hz], by simp, [], st.data, by simp⟩
  · simp only [h0, if_false] at h
    have hlt : ¬ st.position < st.data_start := not_lt.mpr hpos
    simp only [hlt, if_false] at h
    by_cases h1 : st.bufEnd ≤ st.position
    · simp only [h1, if_true] at h
      by_cases h2 : st.done = true
      · simp only [h2, if_true, ReadResult.bytes.injEq] at h
        obtain ⟨rfl, rfl⟩ := h
        have hz : st.data.length - (st.position - st.data_start) = 0 := by
          simp only [HttpState.bufEnd] at h1
          omega
        refine ⟨by simp [hz], by simp, [], st.data, by simp⟩
      · simp only [h2, if_false] at h
        exact absurd h (by simp)
    · simp only [h1, if_false, ReadResult.bytes.injEq] at h
      obtain ⟨rfl, rfl⟩ := h
      simp only [HttpState.bufEnd] at h1
      have hoff : st.position - st.data_start < st.data.length := by omega
      have hdroplen : (st.data.drop (st.position - st.data_start)).length =
          st.data.length - (st.position - st.data_start) := List.length_drop _ _
      have hlen : ((st.data.drop (st.position - st.data_start)).take
            (min buflen (st.data.length - (st.position - st.data_start)))).length =
          min buflen (st.data.length - (st.position - st.data_start)) := by
        rw [List.length_take, hdroplen]
        omega
      refine ⟨hlen, by rw [hlen], ?_⟩
      · refine ⟨st.data.take (st.position - st.data_start),
          (st.data.drop (st.position - st.data_start)).drop
            (min buflen (st.data.length - (st.position - st.data_start))), ?_⟩
        rw [List.append_assoc, List.take_append_drop, List.take_append_drop]

/-- Claim C8 witness: buffered window `[10, 15)`, reading 2 bytes at
position 12 returns exactly `data[2..4]` and advances to 14. -/
theorem c8_http_read_within_buffer_witness :
    (0 < (0:ℕ) → HttpState.bufEnd ⟨12, 0, [1, 2, 3, 4, 5], 10, false⟩ ≤ 0) ∧
      (10 : ℕ) ≤ 12 ∧
      httpRead ⟨12, 0, [1, 2, 3, 4, 5], 10, false⟩ 2 = .bytes [3, 4] 14 ∧
      ([3, 4] : List ℕ).length =
        min 2 (([1, 2, 3, 4, 5] : List ℕ).length - (12 - 10)) ∧
      (14 : ℕ) = 12 + ([3, 4] : List ℕ).length ∧
      ∃ pre post, ([1, 2, 3, 4, 5] : List ℕ) = pre ++ [3, 4] ++ post := by
  refine ⟨by decide, by decide, by rfl, ?_⟩
  exact c8_http_read_within_buffer ⟨12, 0, [1, 2, 3, 4, 5], 10, false⟩ 2 [3, 4] 14
    (by decide) (by decide) rfl

/-! ## Claim C10: `convert_channels` -/

/-- Flattening lists of a constant length `k` has length `count * k`. -/
theorem flatten_const_length {α : Type} (L : List (List α)) (k : ℕ)
    (hk : ∀ l ∈ L, l.length = k) : L.flatten.length = L.length * k := by
  induction L with
  | nil => simp
  | cons x L ih =>
      simp only [List.flatten_cons, List.length_append, List.length_cons]
      rw [hk x (by simp), ih (fun l hl => hk l (by simp [hl]))]
      ring

/-- Indexing into the flattening of constant-length lists: entry
`f * k + c` comes from list `f`, slot `c`. -/
theorem flatten_const_getD {α : Type} (k : ℕ) (L : List (List α)) (f c : ℕ)
    (hk : ∀ l ∈ L, l.length = k) (hf : f < L.length) (hc : c < k) (d : α) :
    L.flatten.getD (f * k + c) d = (L.getD f []).getD c d := by
  induction L generalizing f with
  | nil => exact absurd hf (by simp)
  | cons x L ih =>
      cases f with
      | zero =>
          have hx : x.length = k := hk x (by simp)
          simp only [List.flatten_cons, List.getD_cons_zero, Nat.zero_mul,
            Nat.zero_add]
          rw [List.getD_append]
          omega
      | succ f =>
          have hx : x.length = k := hk x (by simp)
          simp only [List.flatten_cons, List.getD_cons_succ]
          rw [List.getD_append_right, hx]
          · have harith : (f + 1) * k + c - k = f * k + c := by ring_nf; omega
            rw [harith]
            exact ih f (fun l hl => hk l (by simp [hl])) (by simpa using hf)
          · rw [hx]
            calc k ≤ (f + 1) * k := by nlinarith
            _ ≤ (f + 1) * k + c := Nat.le_add_right _ _

/-- `getD` through mapping a function over `List.range`. -/
theorem range_map_getD {α : Type} (n f : ℕ) (hf : f < n) (g : ℕ → α) (d : α) :
    ((List.range n).map g).getD f d = g f := by
  rw [List.getD_eq_getElem?_getD, List.getElem?_map, List.getElem?_range hf]
  rfl

/-- Claim C10: `convert_channels` emits `frames * to_ch` samples and, per
frame: mono→stereo duplicates the mono sample into both slots, stereo→mono
stores `(l + r) * 0.5`, a downmix to `to_ch ≥ 2` copies the first `to_ch`
channels verbatim (no averaging), and an upmix reads channel
`min(ch, from_ch - 1)`, duplicating an existing channel into the extra
slots. -/
theorem c10_convert_channels :
    ∀ (samples : List ℚ) (from_ch to_ch f ch : ℕ),
      from_ch ≠ 0 → from_ch ∣ samples.length →
      (convert_channels samples from_ch to_ch).length =
          samples.length / from_ch * to_ch ∧
      (from_ch = 1 → to_ch = 2 → f < samples.length → ch < 2 →
        (convert_channels samples 1 2).getD (f * 2 + ch) 0 = samples.getD f 0) ∧
      (from_ch = 2 → to_ch = 1 → f < samples.length / 2 →
        (convert_channels samples 2 1).getD f 0 =
          (samples.getD (f * 2) 0 + samples.getD (f * 2 + 1) 0) * (1 / 2)) ∧
      (to_ch < from_ch → 2 ≤ to_ch → f < samples.length / from_ch → ch < to_ch →
        (convert_channels samples from_ch to_ch).getD (f * to_ch + ch) 0 =
          samples.getD (f * from_ch + ch) 0) ∧
      (from_ch < to_ch → f < samples.length / from_ch → ch < to_ch →
        (convert_channels samples from_ch to_ch).getD (f * to_ch + ch) 0 =
          samples.getD (f * from_ch + min ch (from_ch - 1)) 0) := by
  intro samples from_ch to_ch f ch hfc hdvd
  refine ⟨?_, ?_, ?_, ?_, ?_⟩
  · by_cases heq : from_ch = to_ch
    · subst heq
      simp only [convert_channels, if_pos rfl]
      exact (Nat.div_mul_cancel hdvd).symm
    · simp only [convert_channels, if_neg heq]
      by_cases h12 : from_ch = 1 ∧ to_ch = 2
      · rw [if_pos h12,
          flatten_const_length _ to_ch (by
            intro l hl
            simp only [List.mem_map] at hl
            obtain ⟨i, _, rfl⟩ := hl
            simp [h12.2]),
          List.length_map, List.length_range]
      · rw [if_neg h12]
        by_cases h21 : from_ch = 2 ∧ to_ch = 1
        · rw [if_pos h21,
            flatten_const_length _ to_ch (by
              intro l hl
              simp only [List.mem_map] at hl
              obtain ⟨i, _, rfl⟩ := hl
              simp [h21.2]),
            List.length_map, List.length_range]
        · rw [if_neg h21]
          by_cases hdown : to_ch < from_ch
          · rw [if_pos hdown,
              flatten_const_length _ to_ch (by
                intro l hl
                simp only [List.mem_map] at hl
                obtain ⟨i, _, rfl⟩ := hl
                simp),
              List.length_map, List.length_range]
          · rw [if_neg hdown,
              flatten_const_length _ to_ch (by
                intro l hl
                simp only [List.mem_map] at hl
                obtain ⟨i, _, rfl⟩ := hl
                simp),
              List.length_map, List.length_range]
  · rintro rfl rfl hf hch
    simp only [convert_channels, Nat.div_one]
    rw [if_neg (by omega), if_pos (by simp)]
    rw [flatten_const_getD 2 _ f ch (by
        intro l hl
        simp only [List.mem_map] at hl
        obtain ⟨i, _, rfl⟩ := hl
        rfl)
      (by simpa using hf) hch]
    rw [range_map_getD _ f hf]
    interval_cases ch <;> rfl
  · rintro rfl rfl hf
    simp only [convert_channels]
    rw [if_neg (by omega), if_neg (by omega), if_pos (by simp)]
    have h1 : ((List.range (samples.length / 2)).map (fun f =>
        [(samples.getD (f * 2) 0 + samples.getD (f * 2 + 1) 0) * (1 / 2)])).flatten.getD
          (f * 1 + 0) 0 =
        (((List.range (samples.length / 2)).map (fun f =>
          [(samples.getD (f * 2) 0 + samples.getD (f * 2 + 1) 0) * (1 / 2)])).getD f []).getD 0 0 := by
      exact flatten_const_getD 1 _ f 0 (by
          intro l hl
          simp only [List.mem_map] at hl
          obtain ⟨i, _, rfl⟩ := hl
          rfl)
        (by simpa using hf) (by omega) 0
    rw [show f * 1 + 0 = f by ring] at h1
    rw [h1, range_map_getD _ _ (by simpa using hf)]
    rfl
  · intro hdown h2 hf hch
    have hne : from_ch ≠ to_ch := by omega
    simp only [convert_channels]
    rw [if_neg hne, if_neg (by omega), if_neg (by omega), if_pos hdown]
    rw [flatten_const_getD to_ch _ f ch (by
        intro l hl
        simp only [List.mem_map] at hl
        obtain ⟨i, _, rfl⟩ := hl
        simp)
      (by simpa using hf) hch]
    rw [range_map_getD _ f hf, range_map_getD _ ch hch]
  · intro hup hf hch
    have hne : from_ch ≠ to_ch := by omega
    by_cases h12 : from_ch = 1 ∧ to_ch = 2
    · obtain ⟨rfl, rfl⟩ := h12
      simp only [convert_channels, Nat.div_one] at hf ⊢
      rw [if_neg hne, if_pos (by simp)]
      rw [flatten_const_getD 2 _ f ch (by
          intro l hl
          simp only [List.mem_map] at hl
          obtain ⟨i, _, rfl⟩ := hl
          rfl)
        (by simpa using hf) hch]
      rw [range_map_getD _ f hf]
      have hmin : f * 1 + min ch 0 = f := by omega
      rw [hmin]
      interval_cases ch <;> rfl
    · simp only [convert_channels]
      rw [if_neg hne, if_neg h12, if_neg (by omega), if_neg (by omega)]
      rw [flatten_const_getD to_ch _ f ch (by
          intro l hl
          simp only [List.mem_map] at hl
          obtain ⟨i, _, rfl⟩ := hl
          simp)
        (by simpa using hf) hch]
      rw [range_map_getD _ f hf, range_map_getD _ ch hch]

/-- Claim C10 witness: the downmix part at `samples = [1,2,3,4,5,6]`,
3 channels → 2 channels, frame 1, channel 1: the output copies sample 5
verbatim. -/
theorem c10_convert_channels_witness :
    (3 : ℕ) ≠ 0 ∧ (3 : ℕ) ∣ ([1, 2, 3, 4, 5, 6] : List ℚ).length ∧
      (2 : ℕ) < 3 ∧ (2 : ℕ) ≤ 2 ∧
      (1 : ℕ) < ([1, 2, 3, 4, 5, 6] : List ℚ).length / 3 ∧ (1 : ℕ) < 2 ∧
      (convert_channels [1, 2, 3, 4, 5, 6] 3 2).getD (1 * 2 + 1) 0 =
        ([1, 2, 3, 4, 5, 6] : List ℚ).getD (1 * 3 + 1) 0 := by
  refine ⟨by decide, by decide, by decide, by decide, by decide, by decide, ?_⟩
  exact (c10_convert_channels [1, 2, 3, 4, 5, 6] 3 2 1 1 (by decide)
    (by decide)).2.2.2.1 (by decide) (by decide) (by decide) (by decide)

/-! ## Claim C5: fade envelope characterization -/

/-- One fade-out gain update followed by `r` more steps equals `r + 1`
steps from the start (clamped at 0). -/
theorem fadeOut_gain_iter (g s r : ℝ) (hs : 0 ≤ s) (hr : 0 ≤ r) :
    max (max (g - s) 0 - r * s) 0 = max (g - (r + 1) * s) 0 := by
  have hrs : 0 ≤ r * s := mul_nonneg hr hs
  rcases le_total (g - s) 0 with h | h
  · rw [max_eq_right h, max_eq_right (by linarith : 0 - r * s ≤ 0),
      max_eq_right (by nlinarith : g - (r + 1) * s ≤ 0)]
  · rw [max_eq_left h, show g - s - r * s = g - (r + 1) * s by ring]

/-- One fade-in gain update followed by `r` more steps equals `r + 1`
steps from the start (clamped at 1). -/
theorem fadeIn_gain_iter (g s r : ℝ) (hs : 0 ≤ s) (hr : 0 ≤ r) :
    min (min (g + s) 1 + r * s) 1 = min (g + (r + 1) * s) 1 := by
  have hrs : 0 ≤ r * s := mul_nonneg hr hs
  rcases le_total 1 (g + s) with h | h
  · rw [min_eq_right h, min_eq_right (by linarith : (1:ℝ) ≤ 1 + r * s),
      min_eq_right (by nlinarith : (1:ℝ) ≤ g + (r + 1) * s)]
  · rw [min_eq_left h, show g + s + r * s = g + (r + 1) * s by ring]

/-- `fadeOutRun` preserves the sample count. -/
theorem fadeOutRun_length (v s : ℝ) :
    ∀ (xs : List ℝ) (g : ℝ), (fadeOutRun v g s xs).1.length = xs.length := by
  intro xs
  induction xs with
  | nil => intro g; rfl
  | cons x xs ih => intro g; simp [fadeOutRun, ih]

/-- `fadeInRun` preserves the sample count. -/
theorem fadeInRun_length (v s : ℝ) :
    ∀ (xs : List ℝ) (g : ℝ), (fadeInRun v g s xs).1.length = xs.length := by
  intro xs
  induction xs with
  | nil => intro g; rfl
  | cons x xs ih => intro g; simp [fadeInRun, ih]

/-- Closed form of the `k`-th fade-out output sample:
`x_k * (volume * max (g - k*step) 0)`. -/
theorem fadeOutRun_getD (v s : ℝ) (hs : 0 ≤ s) :
    ∀ (xs : List ℝ) (g : ℝ), 0 ≤ g → ∀ k, k < xs.length →
      (fadeOutRun v g s xs).1.getD k 0 =
        xs.getD k 0 * (v * max (g - k * s) 0) := by
  intro xs
  induction xs with
  | nil =>
      intro g _ k hk
      exact absurd hk (by simp)
  | cons x xs ih =>
      intro g hg k hk
      cases k with
      | zero =>
          simp only [fadeOutRun, List.getD_cons_zero, Nat.cast_zero, zero_mul,
            sub_zero]
          rw [max_eq_left hg]
      | succ k =>
          simp only [fadeOutRun, List.getD_cons_succ]
          rw [ih (max (g - s) 0) (le_max_right _ _) k (by simpa using hk)]
          rw [fadeOut_gain_iter g s k hs (Nat.cast_nonneg k)]
          push_cast
          ring_nf

/-- Closed form of the `k`-th fade-in output sample:
`x_k * (volume * min (g + k*step) 1)`. -/
theorem fadeInRun_getD (v s : ℝ) (hs : 0 ≤ s) :
    ∀ (xs : List ℝ) (g : ℝ), g ≤ 1 → ∀ k, k < xs.length →
      (fadeInRun v g s xs).1.getD k 0 =
        xs.getD k 0 * (v * min (g + k * s) 1) := by
  intro xs
  induction xs with
  | nil =>
      intro g _ k hk
      exact absurd hk (by simp)
  | cons x xs ih =>
      intro g hg k hk
      cases k with
      | zero =>
          simp only [fadeInRun, List.getD_cons_zero, Nat.cast_zero, zero_mul,
            add_zero]
          rw [min_eq_left hg]
      | succ k =>
          simp only [fadeInRun, List.getD_cons_succ]
          rw [ih (min (g + s) 1) (min_le_right _ _) k (by simpa using hk)]
          rw [fadeIn_gain_iter g s k hs (Nat.cast_nonneg k)]
          push_cast
          ring_nf

/-- Closed form of the final fade-out gain: `max (g - n*step) 0`. -/
theorem fadeOutRun_final (v s : ℝ) (hs : 0 ≤ s) :
    ∀ (xs : List ℝ) (g : ℝ), 0 ≤ g →
      (fadeOutRun v g s xs).2 = max (g - xs.length * s) 0 := by
  intro xs
  induction xs with
  | nil =>
      intro g hg
      simp only [fadeOutRun, List.length_nil, Nat.cast_zero, zero_mul, sub_zero]
      rw [max_eq_left hg]
  | cons x xs ih =>
      intro g hg
      simp only [fadeOutRun, List.length_cons]
      rw [ih (max (g - s) 0) (le_max_right _ _)]
      rw [fadeOut_gain_iter g s xs.length hs (Nat.cast_nonneg _)]
      push_cast
      ring_nf

/-- Claim C5: `fade_step` is `1/(duration_ms·0.001·rate·channels)`; the
fade-out branch multiplies sample `k` by `volume · max(g - k·step) 0` and
then steps the gain, the gain stays in `[0,1]` throughout, the returned
completion flag is `true` exactly when the final (clamped) gain is 0, and
at completion the stored gain is exactly 0; fade-in is symmetric with
`min(g + k·step) 1` and never signals completion, nor does the no-fade
branch. -/
theorem c5_fade_envelope :
    (∀ d r c : ℝ, fade_step d r c = 1 / (d * 0.001 * r * c)) ∧
    (∀ (xs : List ℝ) (vol g s : ℝ) (a : FadeAction),
      0 ≤ g → g ≤ 1 → 0 ≤ s →
      (apply_volume_with_fade xs vol (.fadingOut g s a)).1.length = xs.length ∧
      (∀ k, k < xs.length →
        (apply_volume_with_fade xs vol (.fadingOut g s a)).1.getD k 0 =
          xs.getD k 0 * (vol * max (g - k * s) 0)) ∧
      (∀ k : ℕ, 0 ≤ max (g - k * s) 0 ∧ max (g - k * s) 0 ≤ 1) ∧
      (apply_volume_with_fade xs vol (.fadingOut g s a)).2.1 =
          .fadingOut (max (g - xs.length * s) 0) s a ∧
      ((apply_volume_with_fade xs vol (.fadingOut g s a)).2.2 = true ↔
          max (g - xs.length * s) 0 = 0) ∧
      (∀ k, k < xs.length →
        (apply_volume_with_fade xs vol (.fadingIn g s)).1.getD k 0 =
          xs.getD k 0 * (vol * min (g + k * s) 1)) ∧
      (∀ k : ℕ, 0 ≤ min (g + k * s) 1 ∧ min (g + k * s) 1 ≤ 1) ∧
      (apply_volume_with_fade xs vol (.fadingIn g s)).2.2 = false ∧
      (apply_volume_with_fade xs vol .none).2.2 = false) := by
  constructor
  · intro d r c
    rfl
  · intro xs vol g s a hg0 hg1 hs
    have hfinal : (fadeOutRun vol g s xs).2 = max (g - xs.length * s) 0 :=
      fadeOutRun_final vol s hs xs g hg0
    refine ⟨?_, ?_, ?_, ?_, ?_, ?_, ?_, rfl, rfl⟩
    · exact fadeOutRun_length vol s xs g
    · intro k hk
      exact fadeOutRun_getD vol s hs xs g hg0 k hk
    · intro k
      have hks : 0 ≤ (k : ℝ) * s := mul_nonneg (Nat.cast_nonneg k) hs
      exact ⟨le_max_right _ _, max_le (by linarith) (by linarith)⟩
    · simp only [apply_volume_with_fade, hfinal]
    · simp only [apply_volume_with_fade, hfinal, decide_eq_true_eq]
      constructor
      · intro h
        exact le_antisymm h (le_max_right _ _)
      · intro h
        exact le_of_eq h
    · intro k hk
      exact fadeInRun_getD vol s hs xs g hg1 k hk
    · intro k
      have hks : 0 ≤ (k : ℝ) * s := mul_nonneg (Nat.cast_nonneg k) hs
      refine ⟨le_min (by linarith) (by linarith), min_le_right _ _⟩

/-- Claim C5 witness: a fade-out over three samples with gain 1 and step
1/2 scales them by 1, 1/2, 0 and completes with gain 0. -/
theorem c5_fade_envelope_witness :
    (0:ℝ) ≤ 1 ∧ (1:ℝ) ≤ 1 ∧ (0:ℝ) ≤ 1/2 ∧
      ((apply_volume_with_fade [1, 1, 1] 1 (.fadingOut 1 (1/2) .pause)).2.2 = true ↔
        max ((1:ℝ) - ([1, 1, 1] : List ℝ).length * (1/2)) 0 = 0) := by
  refine ⟨le_refl 0 |>.trans zero_le_one, le_refl 1, by norm_num, ?_⟩
  exact ((c5_fade_envelope.2 [1, 1, 1] 1 1 (1/2) .pause zero_le_one (le_refl 1)
    (by norm_num)).2.2.2.2).1

/-! ## Claim C3: EQ identity at 0 dB -/

/-- Coefficients that make a Direct Form II Transposed biquad the exact
identity from zero state: unit `b0` and matching feed-forward/feedback
pairs. -/
def identityCoeffs (c : BiquadCoeffs) : Prop :=
  c.b0 = 1 ∧ c.b1 = c.a1 ∧ c.b2 = c.a2

/-- A quotient equals 1 when numerator and (nonzero) denominator agree. -/
theorem div_one_of (x y : ℝ) (h : x = y) (hy : y ≠ 0) : x / y = 1 := by
  rw [h]
  exact div_self hy

/-- At 0 dB gain (`A = 1`) every cookbook filter shape degenerates to the
identity: the normalized coefficients satisfy `b0 = 1`, `b1 = a1`,
`b2 = a2`.  Both Q values used by the source (1.4 and 0.707) satisfy the
hypothesis `1/2 < q`. -/
theorem compute_coeffs_zero_gain (ft : FilterType) (f q sr : ℝ)
    (hq : 1/2 < q) : identityCoeffs (compute_coeffs ft f 0 q sr) := by
  have hq0 : 0 < q := by linarith
  have ha : ((10:ℝ) ^ ((0:ℝ) / 40 : ℝ)) = 1 := by
    rw [show ((0:ℝ) / 40 : ℝ) = 0 by norm_num, Real.rpow_zero]
  have hsin1 : Real.sin (2 * Real.pi * f / sr) ≤ 1 := Real.sin_le_one _
  have hsin2 : -1 ≤ Real.sin (2 * Real.pi * f / sr) := Real.neg_one_le_sin _
  have habs : |Real.sin (2 * Real.pi * f / sr)| ≤ 1 :=
    abs_le.mpr ⟨hsin2, hsin1⟩
  cases ft with
  | lowShelf =>
      simp only [compute_coeffs, identityCoeffs, ha, Real.sqrt_one]
      have hrt0 : 0 ≤ Real.sqrt (((1:ℝ) + 1 / 1) * (1 / q - 1) + 2) :=
        Real.sqrt_nonneg _
      have hrt2 : Real.sqrt (((1:ℝ) + 1 / 1) * (1 / q - 1) + 2) < 2 := by
        rw [Real.sqrt_lt' (by norm_num : (0:ℝ) < 2)]
        have h1q : 1 / q < 2 := by
          rw [div_lt_iff₀ hq0]
          linarith
        nlinarith
      have hprod : |Real.sin (2 * Real.pi * f / sr) *
          Real.sqrt (((1:ℝ) + 1 / 1) * (1 / q - 1) + 2)| ≤
            Real.sqrt (((1:ℝ) + 1 / 1) * (1 / q - 1) + 2) := by
        rw [abs_mul]
        calc |Real.sin (2 * Real.pi * f / sr)| *
              |Real.sqrt (((1:ℝ) + 1 / 1) * (1 / q - 1) + 2)| ≤
            1 * |Real.sqrt (((1:ℝ) + 1 / 1) * (1 / q - 1) + 2)| := by
              apply mul_le_mul_of_nonneg_right habs (abs_nonneg _)
          _ = Real.sqrt (((1:ℝ) + 1 / 1) * (1 / q - 1) + 2) := by
              rw [one_mul, abs_of_nonneg hrt0]
      have hD : (0:ℝ) < (1 + 1) + (1 - 1) * Real.cos (2 * Real.pi * f / sr) +
          2 * 1 * (Real.sin (2 * Real.pi * f / sr) / 2 *
            Real.sqrt (((1:ℝ) + 1 / 1) * (1 / q - 1) + 2)) := by
        have := abs_le.mp hprod
        nlinarith [this.1]
      refine ⟨div_one_of _ _ (by ring) (ne_of_gt hD), ?_, ?_⟩
      · have hnum : 2 * 1 * ((1 - 1) - (1 + 1) * Real.cos (2 * Real.pi * f / sr)) =
            -2 * ((1 - 1) + (1 + 1) * Real.cos (2 * Real.pi * f / sr)) := by
          ring
        rw [hnum]
      · have hnum : (1:ℝ) * ((1 + 1) - (1 - 1) * Real.cos (2 * Real.pi * f / sr) -
            2 * 1 * (Real.sin (2 * Real.pi * f / sr) / 2 *
              Real.sqrt (((1:ℝ) + 1 / 1) * (1 / q - 1) + 2))) =
            (1 + 1) + (1 - 1) * Real.cos (2 * Real.pi * f / sr) -
            2 * 1 * (Real.sin (2 * Real.pi * f / sr) / 2 *
              Real.sqrt (((1:ℝ) + 1 / 1) * (1 / q - 1) + 2)) := by
          ring
        rw [hnum]
  | peaking =>
      simp only [compute_coeffs, identityCoeffs, ha]
      have h2q : (0:ℝ) < 2 * q := by linarith
      have habs2 : |Real.sin (2 * Real.pi * f / sr) / (2 * q)| ≤ 1 / (2 * q) := by
        rw [abs_div, abs_of_pos h2q]
        exact (div_le_div_iff_of_pos_right h2q).mpr habs
      have hlt : 1 / (2 * q) < 1 := by
        rw [div_lt_one h2q]
        linarith
      have hD : (0:ℝ) < 1 + Real.sin (2 * Real.pi * f / sr) / (2 * q) / 1 := by
        rw [div_one]
        have := abs_le.mp habs2
        linarith [this.1]
      refine ⟨div_one_of _ _ (by ring) (ne_of_gt hD), by trivial, ?_⟩
      · have hnum : (1:ℝ) - Real.sin (2 * Real.pi * f / sr) / (2 * q) * 1 =
            1 - Real.sin (2 * Real.pi * f / sr) / (2 * q) / 1 := by
          ring
        rw [hnum]
  | highShelf =>
      simp only [compute_coeffs, identityCoeffs, ha, Real.sqrt_one]
      have hrt0 : 0 ≤ Real.sqrt (((1:ℝ) + 1 / 1) * (1 / q - 1) + 2) :=
        Real.sqrt_nonneg _
      have hrt2 : Real.sqrt (((1:ℝ) + 1 / 1) * (1 / q - 1) + 2) < 2 := by
        rw [Real.sqrt_lt' (by norm_num : (0:ℝ) < 2)]
        have h1q : 1 / q < 2 := by
          rw [div_lt_iff₀ hq0]
          linarith
        nlinarith
      have hprod : |Real.sin (2 * Real.pi * f / sr) *
          Real.sqrt (((1:ℝ) + 1 / 1) * (1 / q - 1) + 2)| ≤
            Real.sqrt (((1:ℝ) + 1 / 1) * (1 / q - 1) + 2) := by
        rw [abs_mul]
        calc |Real.sin (2 * Real.pi * f / sr)| *
              |Real.sqrt (((1:ℝ) + 1 / 1) * (1 / q - 1) + 2)| ≤
            1 * |Real.sqrt (((1:ℝ) + 1 / 1) * (1 / q - 1) + 2)| := by
              apply mul_le_mul_of_nonneg_right habs (abs_nonneg _)
          _ = Real.sqrt (((1:ℝ) + 1 / 1) * (1 / q - 1) + 2) := by
              rw [one_mul, abs_of_nonneg hrt0]
      have hD : (0:ℝ) < (1 + 1) - (1 - 1) * Real.cos (2 * Real.pi * f / sr) +
          2 * 1 * (Real.sin (2 * Real.pi * f / sr) / 2 *
            Real.sqrt (((1:ℝ) + 1 / 1) * (1 / q - 1) + 2)) := by
        have := abs_le.mp hprod
        nlinarith [this.1]
      refine ⟨div_one_of _ _ (by ring) (ne_of_gt hD), ?_, ?_⟩
      · have hnum : -2 * 1 * ((1 - 1) + (1 + 1) * Real.cos (2 * Real.pi * f / sr)) =
            2 * ((1 - 1) - (1 + 1) * Real.cos (2 * Real.pi * f / sr)) := by
          ring
        rw [hnum]
      · have hnum : (1:ℝ) * ((1 + 1) + (1 - 1) * Real.cos (2 * Real.pi * f / sr) -
            2 * 1 * (Real.sin (2 * Real.pi * f / sr) / 2 *
              Real.sqrt (((1:ℝ) + 1 / 1) * (1 / q - 1) + 2))) =
            (1 + 1) - (1 - 1) * Real.cos (2 * Real.pi * f / sr) -
            2 * 1 * (Real.sin (2 * Real.pi * f / sr) / 2 *
              Real.sqrt (((1:ℝ) + 1 / 1) * (1 / q - 1) + 2)) := by
          ring
        rw [hnum]

/-- All filter state words of a band-major state table are zero. -/
def allZeroStates (states : List (List BiquadState)) : Prop :=
  ∀ band ∈ states, ∀ s ∈ band, s = BiquadState.new

/-- A zero-state biquad with identity coefficients passes the sample
through unchanged and stays at zero state. -/
theorem run_identity (c : BiquadCoeffs) (hc : identityCoeffs c) (x : ℝ) :
    (BiquadState.new.run c x).1 = x ∧ (BiquadState.new.run c x).2 = BiquadState.new := by
  obtain ⟨h0, h1, h2⟩ := hc
  constructor
  · show c.b0 * x + BiquadState.new.z1 = x
    rw [h0]
    show 1 * x + 0 = x
    ring
  · show (⟨c.b1 * x - c.a1 * (c.b0 * x + BiquadState.new.z1) + BiquadState.new.z2,
        c.b2 * x - c.a2 * (c.b0 * x + BiquadState.new.z1)⟩ : BiquadState) = BiquadState.new
    rw [h0, h1, h2]
    show (⟨c.a1 * x - c.a1 * (1 * x + 0) + 0, c.a2 * x - c.a2 * (1 * x + 0)⟩ : BiquadState) =
      BiquadState.new
    have e1 : c.a1 * x - c.a1 * (1 * x + 0) + 0 = 0 := by ring
    have e2 : c.a2 * x - c.a2 * (1 * x + 0) = 0 := by ring
    rw [e1, e2]
    rfl

/-- The band cascade with identity coefficients and all-zero state returns
the sample unchanged and leaves an all-zero state table. -/
theorem eqCascade_identity :
    ∀ (cs : List BiquadCoeffs) (sts : List (List BiquadState)) (ch : ℕ) (x : ℝ),
      (∀ c ∈ cs, identityCoeffs c) → allZeroStates sts →
      (eqCascade cs sts ch x).1 = x ∧ allZeroStates (eqCascade cs sts ch x).2 := by
  intro cs
  induction cs with
  | nil =>
      intro sts ch x _ hz
      exact ⟨rfl, hz⟩
  | cons c cs ih =>
      intro sts ch x hc hz
      cases sts with
      | nil => exact ⟨rfl, hz⟩
      | cons band rest =>
          have hcid : identityCoeffs c := hc c (by simp)
          have hband : ∀ s ∈ band, s = BiquadState.new := hz band (by simp)
          have hrest : allZeroStates rest := by
            intro b hb
            exact hz b (by simp [hb])
          have hget : band.getD ch BiquadState.new = BiquadState.new := by
            rcases lt_or_ge ch band.length with hlt | hge
            · rw [List.getD_eq_getElem _ _ hlt]
              exact hband _ (List.getElem_mem hlt)
            · exact List.getD_eq_default _ _ hge
          have hrun := run_identity c hcid x
          have hdeeper := ih rest ch x (fun c' hc' => hc c' (by simp [hc'])) hrest
          simp only [eqCascade, hget, hrun.1, hrun.2]
          refine ⟨hdeeper.1, ?_⟩
          intro b hb
          rcases List.mem_cons.mp hb with rfl | hb'
          · intro s hs
            rcases List.mem_or_eq_of_mem_set hs with hmem | rfl
            · exact hband s hmem
            · rfl
          · exact hdeeper.2 b hb'

/-- The per-sample loop with identity coefficients and all-zero state is
the identity on every buffer whose samples lie in `[-1, 1]`. -/
theorem eqProcessList_identity :
    ∀ (xs : List ℝ) (cs : List BiquadCoeffs) (sts : List (List BiquadState))
      (channels idx : ℕ),
      (∀ c ∈ cs, identityCoeffs c) → allZeroStates sts →
      (∀ x ∈ xs, |x| ≤ 1) →
      (eqProcessList cs sts channels idx xs).1 = xs := by
  intro xs
  induction xs with
  | nil => intro cs sts channels idx _ _ _; rfl
  | cons x xs ih =>
      intro cs sts channels idx hc hz hb
      have hcas := eqCascade_identity cs sts (idx % channels) x hc hz
      have hx : |x| ≤ 1 := hb x (by simp)
      have hclamp : rclamp (eqCascade cs sts (idx % channels) x).1 (-1) 1 = x := by
        rw [hcas.1]
        simp only [rclamp]
        rcases abs_le.mp hx with ⟨hl, hr⟩
        rw [if_neg (by linarith), if_neg (by linarith)]
      simp only [eqProcessList, hclamp]
      rw [ih cs (eqCascade cs sts (idx % channels) x).2 channels (idx + 1) hc hcas.2
        (fun y hy => hb y (by simp [hy]))]

/-- Every coefficient record built by `Equalizer::new` is an identity
biquad (all gains are 0 dB). -/
theorem new_coeffs_identity (sr ch : ℕ) :
    ∀ c ∈ (Equalizer.new sr ch).coeffs, identityCoeffs c := by
  intro c hc
  simp only [Equalizer.new, List.mem_map, List.mem_range] at hc
  obtain ⟨i, _, rfl⟩ := hc
  apply compute_coeffs_zero_gain
  simp only [qFor]
  split_ifs <;> norm_num

/-- `Equalizer::new` starts with all-zero filter state. -/
theorem new_states_zero (sr ch : ℕ) : allZeroStates (Equalizer.new sr ch).states := by
  intro band hband
  simp only [Equalizer.new, List.mem_map, List.mem_range] at hband
  obtain ⟨i, _, rfl⟩ := hband
  intro s hs
  exact List.eq_of_mem_replicate hs

/-- Claim C3: processing any buffer of samples in `[-1, 1]` through a
fresh `Equalizer` (all 10 gains at 0 dB, zero biquad state) returns the
input exactly — so in particular within the spec's 1e-5 absolute error
bound per sample. -/
theorem c3_eq_identity_at_zero_gain :
    ∀ (sample_rate channels : ℕ) (samples : List ℝ),
      (∀ x ∈ samples, |x| ≤ 1) →
      ((Equalizer.new sample_rate channels).process samples).1 = samples := by
  intro sr ch samples hb
  simp only [Equalizer.process]
  rw [if_neg (by simp [Equalizer.new])]
  rw [eqProcessList_identity _ _ _ _ _ (new_coeffs_identity sr ch) (new_states_zero sr ch)
    (fun x hx => hb x (List.mem_of_mem_take hx))]
  exact List.take_append_drop _ _

/-- Claim C3 witness: the fresh 44.1 kHz stereo equalizer leaves the
buffer `[1/2, -1/2]` unchanged. -/
theorem c3_eq_identity_at_zero_gain_witness :
    (∀ x ∈ ([1/2, -1/2] : List ℝ), |x| ≤ 1) ∧
      ((Equalizer.new 44100 2).process [1/2, -1/2]).1 = [1/2, -1/2] := by
  have hb : ∀ x ∈ ([1/2, -1/2] : List ℝ), |x| ≤ 1 := by
    intro x hx
    rcases List.mem_cons.mp hx with rfl | hx'
    · rw [abs_of_pos (by norm_num)]
      norm_num
    · rcases List.mem_cons.mp hx' with rfl | hx''
      · rw [abs_of_neg (by norm_num)]
        norm_num
      · exact absurd hx'' (by simp)
  exact ⟨hb, c3_eq_identity_at_zero_gain 44100 2 [1/2, -1/2] hb⟩

/-! ## Claim C4: samples enqueued into the ring are bounded by 1 -/

/-- The post-EQ clamp bounds every output sample by 1 in magnitude. -/
theorem rclamp_abs_le_one (y : ℝ) : |rclamp y (-1) 1| ≤ 1 := by
  simp only [rclamp]
  split_ifs with h1 h2
  · rw [abs_of_neg (by norm_num : (-1:ℝ) < 0)]
    norm_num
  · rw [abs_of_pos (by norm_num : (0:ℝ) < 1)]
  · rw [abs_le]
    constructor <;> linarith

/-- Every sample emitted by the per-sample EQ loop is clamped, hence
bounded by 1. -/
theorem eqProcessList_abs_le_one :
    ∀ (xs : List ℝ) (cs : List BiquadCoeffs) (sts : List (List BiquadState))
      (channels idx : ℕ),
      ∀ y ∈ (eqProcessList cs sts channels idx xs).1, |y| ≤ 1 := by
  intro xs
  induction xs with
  | nil =>
      intro cs sts channels idx y hy
      exact absurd hy (by simp [eqProcessList])
  | cons x xs ih =>
      intro cs sts channels idx y hy
      simp only [eqProcessList] at hy
      rcases List.mem_cons.mp hy with rfl | hy'
      · exact rclamp_abs_le_one _
      · exact ih _ _ channels (idx + 1) y hy'

/-- When the EQ is enabled and the buffer is a whole number of frames,
every sample of `Equalizer::process` output is bounded by 1. -/
theorem process_abs_le_one (eq : Equalizer) (samples : List ℝ)
    (hen : eq.enabled = true) (hdvd : eq.channels ∣ samples.length) :
    ∀ y ∈ (eq.process samples).1, |y| ≤ 1 := by
  intro y hy
  simp only [Equalizer.process, hen] at hy
  rw [if_neg (by simp)] at hy
  rw [Nat.div_mul_cancel hdvd, List.take_length, List.drop_length,
    List.append_nil] at hy
  exact eqProcessList_abs_le_one _ _ _ _ _ y hy

/-- Well-formedness of a fade state: gain in `[0,1]`, nonnegative step
(every fade the engine constructs satisfies this: steps are `fade_step` of
positive durations and gains start at 0, 1, or a previous gain). -/
def fadeGainBounded : FadeState → Prop
  | .none => True
  | .fadingIn g s => 0 ≤ g ∧ g ≤ 1 ∧ 0 ≤ s
  | .fadingOut g s _ => 0 ≤ g ∧ g ≤ 1 ∧ 0 ≤ s

/-- `fadeOutRun` maps samples bounded by 1 to samples bounded by 1 when
volume and gain lie in `[0,1]`. -/
theorem fadeOutRun_abs_le_one (v s : ℝ) (hv0 : 0 ≤ v) (hv1 : v ≤ 1)
    (hs : 0 ≤ s) :
    ∀ (xs : List ℝ) (g : ℝ), 0 ≤ g → g ≤ 1 → (∀ x ∈ xs, |x| ≤ 1) →
      ∀ y ∈ (fadeOutRun v g s xs).1, |y| ≤ 1 := by
  intro xs
  induction xs with
  | nil =>
      intro g _ _ _ y hy
      exact absurd hy (by simp [fadeOutRun])
  | cons x xs ih =>
      intro g hg0 hg1 hb y hy
      simp only [fadeOutRun] at hy
      rcases List.mem_cons.mp hy with rfl | hy'
      · rw [abs_mul, abs_of_nonneg (mul_nonneg hv0 hg0)]
        have hx : |x| ≤ 1 := hb x (by simp)
        have hvg : v * g ≤ 1 := mul_le_one₀ hv1 hg0 hg1
        nlinarith [abs_nonneg x]
      · exact ih (max (g - s) 0) (le_max_right _ _)
          (max_le (by linarith) (by linarith))
          (fun z hz => hb z (by simp [hz])) y hy'

/-- `fadeInRun` maps samples bounded by 1 to samples bounded by 1 when
volume and gain lie in `[0,1]`. -/
theorem fadeInRun_abs_le_one (v s : ℝ) (hv0 : 0 ≤ v) (hv1 : v ≤ 1)
    (hs : 0 ≤ s) :
    ∀ (xs : List ℝ) (g : ℝ), 0 ≤ g → g ≤ 1 → (∀ x ∈ xs, |x| ≤ 1) →
      ∀ y ∈ (fadeInRun v g s xs).1, |y| ≤ 1 := by
  intro xs
  induction xs with
  | nil =>
      intro g _ _ _ y hy
      exact absurd hy (by simp [fadeInRun])
  | cons x xs ih =>
      intro g hg0 hg1 hb y hy
      simp only [fadeInRun] at hy
      rcases List.mem_cons.mp hy with rfl | hy'
      · rw [abs_mul, abs_of_nonneg (mul_nonneg hv0 hg0)]
        have hx : |x| ≤ 1 := hb x (by simp)
        have hvg : v * g ≤ 1 := mul_le_one₀ hv1 hg0 hg1
        nlinarith [abs_nonneg x]
      · exact ih (min (g + s) 1) (le_min (by linarith) (by norm_num))
          (min_le_right _ _) (fun z hz => hb z (by simp [hz])) y hy'

/-- `apply_volume_with_fade` preserves the per-sample bound 1 for volume
in `[0,1]` and a well-formed fade state. -/
theorem apply_volume_with_fade_abs_le_one (xs : List ℝ) (v : ℝ)
    (fade : FadeState) (hv0 : 0 ≤ v) (hv1 : v ≤ 1)
    (hf : fadeGainBounded fade) (hb : ∀ x ∈ xs, |x| ≤ 1) :
    ∀ y ∈ (apply_volume_with_fade xs v fade).1, |y| ≤ 1 := by
  intro y hy
  cases fade with
  | none =>
      simp only [apply_volume_with_fade] at hy
      split_ifs at hy
      · simp only [List.mem_map] at hy
        obtain ⟨x, hx, rfl⟩ := hy
        rw [abs_mul, abs_of_nonneg hv0]
        have := hb x hx
        nlinarith [abs_nonneg x]
      · exact hb y hy
  | fadingIn g s =>
      obtain ⟨hg0, hg1, hs⟩ := hf
      exact fadeInRun_abs_le_one v s hv0 hv1 hs xs g hg0 hg1 hb y hy
  | fadingOut g s a =>
      obtain ⟨hg0, hg1, hs⟩ := hf
      exact fadeOutRun_abs_le_one v s hv0 hv1 hs xs g hg0 hg1 hb y hy

/-- Claim C4: with the EQ enabled, a whole number of frames, volume in
`[0,1]` and a well-formed fade state, every sample that the audio thread
pushes into the ring (the output of `apply_volume_with_fade` applied to
the post-EQ buffer) satisfies `|x| ≤ 1`, for arbitrary decoded input. -/
theorem c4_enqueued_samples_bounded :
    ∀ (eq : Equalizer) (samples : List ℝ) (volume : ℝ) (fade : FadeState),
      eq.enabled = true → eq.channels ∣ samples.length →
      0 ≤ volume → volume ≤ 1 → fadeGainBounded fade →
      ∀ y ∈ (apply_volume_with_fade (eq.process samples).1 volume fade).1,
        |y| ≤ 1 := by
  intro eq samples volume fade hen hdvd hv0 hv1 hf
  exact apply_volume_with_fade_abs_le_one _ volume fade hv0 hv1 hf
    (process_abs_le_one eq samples hen hdvd)

/-- Claim C4 witness: a fresh stereo equalizer, full volume, no fade, and
an out-of-range decoded buffer `[2, -3]` still yields ring samples bounded
by 1. -/
theorem c4_enqueued_samples_bounded_witness :
    (Equalizer.new 44100 2).enabled = true ∧
      (Equalizer.new 44100 2).channels ∣ ([2, -3] : List ℝ).length ∧
      (0:ℝ) ≤ 1 ∧ (1:ℝ) ≤ 1 ∧ fadeGainBounded .none ∧
      ∀ y ∈ (apply_volume_with_fade
          ((Equalizer.new 44100 2).process [2, -3]).1 1 .none).1, |y| ≤ 1 := by
  refine ⟨rfl, ⟨1, rfl⟩, zero_le_one, le_refl 1, trivial, ?_⟩
  exact c4_enqueued_samples_bounded (Equalizer.new 44100 2) [2, -3] 1 .none
    rfl ⟨1, rfl⟩ zero_le_one (le_refl 1) trivial

end BaYin
